import Mathlib

/-!
Verification of `scripts/convert_data.py` from the tomoePredict repository.

The script has two core functions:

* `parse_tdic(content)` — a cursor-based line scanner turning the `.tdic`
  text format into a list of `{char, strokes}` records;
* `normalize_strokes(strokes)` — rescaling of stroke coordinates into the
  unit square, preserving aspect ratio.

Both are shallowly embedded below.  Python strings are modelled as `List Char`
(one entry per code point, matching Python's code-point indexing), and the
string operations the script uses (`strip`, `split('\n')`, `split(')')`,
`split()`, `startswith`, `[1:]`, `in`) are given structurally recursive
models so that every definition evaluates by kernel reduction.
Coordinates are exact: `Int` when parsed, `ℚ` after normalization
(the Python code uses machine floats; the claims about normalization are
settled over exact arithmetic).
-/

deriving instance DecidableEq for Except

namespace TomoePredict

/-- Whitespace test matching `Char.isWhitespace`; models the character class
Python's `str.strip` / argumentless `str.split` use (Python additionally
strips `\x0b`, `\x0c` and Unicode spaces, which the `.tdic` format does not
contain). -/
def isWsChar (c : Char) : Bool :=
  c = ' ' || c = '\t' || c = '\r' || c = '\n'

/-- Model of Python `str.strip()`: drop whitespace from both ends. -/
def pyStrip (cs : List Char) : List Char :=
  ((cs.dropWhile isWsChar).reverse.dropWhile isWsChar).reverse

/-- Model of Python `str.split(sep)` for a single-character separator `sep`
(as used with `'\n'` and `')'` in the script): split at every occurrence,
keeping empty pieces. -/
def splitOnChar (sep : Char) : List Char → List (List Char)
  | [] => [[]]
  | c :: rest =>
    match splitOnChar sep rest with
    | [] => if c = sep then [[], [c]] else [[c]]
    | h :: t => if c = sep then [] :: h :: t else (c :: h) :: t

/-- Model of Python argumentless `str.split()`: split on runs of whitespace,
producing no empty tokens.  `cur` is the (reversed) token being built. -/
def splitWsAux : List Char → List Char → List (List Char)
  | [], cur => if cur = [] then [] else [cur.reverse]
  | c :: rest, cur =>
    if isWsChar c then
      if cur = [] then splitWsAux rest []
      else cur.reverse :: splitWsAux rest []
    else splitWsAux rest (c :: cur)

def splitWs (cs : List Char) : List (List Char) := splitWsAux cs []

/-- Model of Python `s.startswith(c)` for a one-character prefix `c`
(the script only tests the one-character prefixes `'旧'`, `'新'`, `':'`). -/
def startsWithChar (c : Char) : List Char → Bool
  | [] => false
  | d :: _ => d = c

/-- Value of a list of decimal digits. -/
def digitsVal (cs : List Char) : Nat :=
  cs.foldl (fun a c => a * 10 + (c.toNat - 48)) 0

/-- Model of Python `int(s)`: strip whitespace, allow one optional sign,
then require a non-empty run of decimal digits; `none` models the
`ValueError` that `int` raises otherwise.  (Python additionally accepts
underscore separators and non-ASCII digits, which the `.tdic` format does
not contain.) -/
def pyInt (cs : List Char) : Option Int :=
  match pyStrip cs with
  | [] => none
  | '+' :: rest =>
    if rest ≠ [] ∧ rest.all Char.isDigit then some (digitsVal rest) else none
  | '-' :: rest =>
    if rest ≠ [] ∧ rest.all Char.isDigit then some (-(digitsVal rest : Int)) else none
  | c :: rest =>
    if (c :: rest).all Char.isDigit then some (digitsVal (c :: rest)) else none

/-- Embedding of the per-fragment body of the coordinate loop in
`parse_tdic` (lines 68–75 of `convert_data.py`): strip the fragment,
require a `'('`, take the substring after the first `'('`, split it on
whitespace and parse exactly two integers; any `ValueError`
(non-integer token, or a token count other than two) yields `none`,
modelling the `except ValueError: continue`. -/
def parseCoord (fragment : List Char) : Option (Int × Int) :=
  let part := pyStrip fragment
  if part.contains '(' then
    match splitWs ((part.dropWhile (fun c => c ≠ '(')).drop 1) with
    | [a, b] =>
      match pyInt a, pyInt b with
      | some x, some y => some (x, y)
      | _, _ => none
    | _ => none
  else none

/-- Embedding of the stroke-line parse in `parse_tdic` (lines 65–75):
split the (already stripped) line on `')'` and collect the fragments that
yield a coordinate pair, in order. -/
def parseStrokeLine (line : List Char) : List (Int × Int) :=
  (splitOnChar ')' line).filterMap parseCoord

/-- One record of `parse_tdic`'s output: the Python dict
`{'char': char, 'strokes': strokes}`. -/
structure CharacterRecord where
  char : List Char
  strokes : List (List (Int × Int))
deriving DecidableEq, Repr

/-- Embedding of the stroke-reading loop `for _ in range(stroke_count)` of
`parse_tdic` (lines 60–79).  `fuel` is the number of remaining loop
iterations (initially `stroke_count`), `i` the cursor, `acc` the `strokes`
accumulator.  Returns the accumulated strokes and the final cursor.
Note the loop body mirrors the source exactly: on a blank line the Python
`continue` skips the trailing `i += 1`, so the cursor does NOT advance. -/
def strokeLoop (lines : List (List Char)) : Nat → Nat → List (List (Int × Int)) →
    List (List (Int × Int)) × Nat
  | 0, i, acc => (acc, i)
  | fuel + 1, i, acc =>
    if i < lines.length then
      let sl := pyStrip (lines.getD i [])
      if sl = [] then
        strokeLoop lines fuel i acc
      else
        let coords := parseStrokeLine sl
        if coords = [] then strokeLoop lines fuel (i + 1) acc
        else strokeLoop lines fuel (i + 1) (acc ++ [coords])
    else (acc, i)

/-- Modelled from the spec, for comparison with `strokeLoop` (claim C1):
the stroke-reading loop as §4.1 of the spec words it — on a blank line
"the cursor still advances past it, but no stroke-line slot is charged"
(the loop is bounded by `N` iterations, a blank line consumes one
iteration of that bound while contributing nothing to the strokes, and
the cursor advances past it); everything else is as in the source. -/
def strokeLoopSpecAdvance (lines : List (List Char)) :
    Nat → Nat → List (List (Int × Int)) → List (List (Int × Int)) × Nat
  | 0, i, acc => (acc, i)
  | fuel + 1, i, acc =>
    if i < lines.length then
      let sl := pyStrip (lines.getD i [])
      if sl = [] then
        strokeLoopSpecAdvance lines fuel (i + 1) acc
      else
        let coords := parseStrokeLine sl
        if coords = [] then strokeLoopSpecAdvance lines fuel (i + 1) acc
        else strokeLoopSpecAdvance lines fuel (i + 1) (acc ++ [coords])
    else (acc, i)

/-- Number of non-blank lines inspected by `strokeLoop` (same traversal)
whose stroke-line parse yields at least one coordinate pair.  This is the
specification device used to state claim C2's "count of non-blank stroke
lines that yielded ≥ 1 parsed coordinate pair". -/
def productiveLineCount (lines : List (List Char)) : Nat → Nat → Nat
  | 0, _ => 0
  | fuel + 1, i =>
    if i < lines.length then
      let sl := pyStrip (lines.getD i [])
      if sl = [] then
        productiveLineCount lines fuel i
      else if parseStrokeLine sl = [] then productiveLineCount lines fuel (i + 1)
      else productiveLineCount lines fuel (i + 1) + 1
    else 0

/-- Embedding of the inner skip of variant blocks in `parse_tdic`
(lines 33–35): `while i < len(lines) and lines[i].strip(): i += 1`.
`fuel` bounds the iterations; `parseLoop` passes `lines.length`, which can
never be exhausted since the cursor grows by one per iteration. -/
def skipNonBlank (lines : List (List Char)) : Nat → Nat → Nat
  | 0, i => i
  | fuel + 1, i =>
    if i < lines.length ∧ pyStrip (lines.getD i []) ≠ [] then
      skipNonBlank lines fuel (i + 1)
    else i

/-- Embedding of the main `while i < len(lines)` loop of `parse_tdic`
(lines 25–85).  `fuel` bounds the iterations; every iteration of the
Python loop advances `i` by at least one, so `parse_tdic` passes
`lines.length`, which cannot be exhausted while `i < lines.length`.
The branches, in source order: blank line; variant marker `旧`/`新`;
glyph line (with nested count-line check, `int` parse whose failure is the
script's only uncaught exception, and the stroke-reading loop); orphan
`':'` line. -/
def parseLoop (lines : List (List Char)) :
    Nat → Nat → List CharacterRecord → Except (List Char) (List CharacterRecord)
  | 0, _, acc => .ok acc
  | fuel + 1, i, acc =>
    if i < lines.length then
      let line := pyStrip (lines.getD i [])
      if line = [] then parseLoop lines fuel (i + 1) acc
      else if startsWithChar '旧' line || startsWithChar '新' line then
        parseLoop lines fuel (skipNonBlank lines lines.length (i + 1)) acc
      else if !startsWithChar ':' line then
        if i + 1 < lines.length then
          let cnt := pyStrip (lines.getD (i + 1) [])
          if !startsWithChar ':' cnt then
            parseLoop lines fuel (i + 1) acc
          else
            match pyInt (cnt.drop 1) with
            | none => .error (cnt.drop 1)
            | some n =>
              let r := strokeLoop lines n.toNat (i + 2) []
              if r.1 = [] then parseLoop lines fuel r.2 acc
              else parseLoop lines fuel r.2 (acc ++ [⟨line, r.1⟩])
        else .ok acc
      else parseLoop lines fuel (i + 1) acc
    else .ok acc

/-- Embedding of `parse_tdic(content)`: strip the whole text, split it on
newlines, and run the scanning loop from cursor 0.  An `Except.error`
carries the remainder after `':'` whose `int(...)` raised, the script's
only uncaught exception. -/
def parse_tdic (content : String) : Except (List Char) (List CharacterRecord) :=
  let lines := splitOnChar '\n' (pyStrip content.toList)
  parseLoop lines lines.length 0 []

/-! ### The stroke normalizer -/

/-- Minimum of a list of rationals (Python `min`); junk value 0 on `[]`,
where the script never calls it. -/
def minList : List ℚ → ℚ
  | [] => 0
  | x :: xs => xs.foldl min x

/-- Maximum of a list of rationals (Python `max`); junk value 0 on `[]`. -/
def maxList : List ℚ → ℚ
  | [] => 0
  | x :: xs => xs.foldl max x

/-- The Python comprehension `[p[0] for s in strokes for p in s]`. -/
def all_x (strokes : List (List (ℚ × ℚ))) : List ℚ :=
  strokes.flatten.map Prod.fst

/-- The Python comprehension `[p[1] for s in strokes for p in s]`. -/
def all_y (strokes : List (List (ℚ × ℚ))) : List ℚ :=
  strokes.flatten.map Prod.snd

/-- The local `min_x` of `normalize_strokes`. -/
def min_x (strokes : List (List (ℚ × ℚ))) : ℚ := minList (all_x strokes)

/-- The local `max_x` of `normalize_strokes`. -/
def max_x (strokes : List (List (ℚ × ℚ))) : ℚ := maxList (all_x strokes)

/-- The local `min_y` of `normalize_strokes`. -/
def min_y (strokes : List (List (ℚ × ℚ))) : ℚ := minList (all_y strokes)

/-- The local `max_y` of `normalize_strokes`. -/
def max_y (strokes : List (List (ℚ × ℚ))) : ℚ := maxList (all_y strokes)

/-- The local `width = max_x - min_x` of `normalize_strokes`. -/
def widthOf (strokes : List (List (ℚ × ℚ))) : ℚ := max_x strokes - min_x strokes

/-- The local `height = max_y - min_y` of `normalize_strokes`. -/
def heightOf (strokes : List (List (ℚ × ℚ))) : ℚ := max_y strokes - min_y strokes

/-- The local `scale = max(width, height)`, replaced by 1 when zero
(lines 108–113 of `convert_data.py`). -/
def scaleOf (strokes : List (List (ℚ × ℚ))) : ℚ :=
  if max (widthOf strokes) (heightOf strokes) = 0 then 1
  else max (widthOf strokes) (heightOf strokes)

/-- The per-point body of `normalize_strokes`:
`((x - min_x) / scale, (y - min_y) / scale)`. -/
def normPoint (strokes : List (List (ℚ × ℚ))) (p : ℚ × ℚ) : ℚ × ℚ :=
  ((p.1 - min_x strokes) / scaleOf strokes, (p.2 - min_y strokes) / scaleOf strokes)

/-- Embedding of `normalize_strokes(strokes)` (lines 91–122 of
`convert_data.py`): return `[]` when there are no points at all, otherwise
rescale every point, preserving stroke grouping and point order. -/
def normalize_strokes (strokes : List (List (ℚ × ℚ))) : List (List (ℚ × ℚ)) :=
  if all_x strokes = [] ∨ all_y strokes = [] then []
  else strokes.map (fun stroke => stroke.map (normPoint strokes))

/-- Coordinate cast used when feeding `parse_tdic` output to
`normalize_strokes` (Python does this implicitly on its numbers). -/
def toRatStrokes (s : List (List (Int × Int))) : List (List (ℚ × ℚ)) :=
  s.map (List.map (fun p => ((p.1 : ℚ), (p.2 : ℚ))))

/-! ### Facts about `min`/`max` folds -/

theorem foldl_min_le_init : ∀ (xs : List ℚ) (x : ℚ), xs.foldl min x ≤ x
  | [], x => le_refl x
  | a :: xs, x => le_trans (foldl_min_le_init xs (min x a)) (min_le_left x a)

theorem init_le_foldl_max : ∀ (xs : List ℚ) (x : ℚ), x ≤ xs.foldl max x
  | [], x => le_refl x
  | a :: xs, x => le_trans (le_max_left x a) (init_le_foldl_max xs (max x a))

theorem foldl_min_le_mem : ∀ (xs : List ℚ) (x a : ℚ), a ∈ xs → xs.foldl min x ≤ a
  | a' :: xs, x, a, h => by
    rcases List.mem_cons.mp h with h1 | h2
    · subst h1
      exact le_trans (foldl_min_le_init xs (min x a)) (min_le_right x a)
    · exact foldl_min_le_mem xs (min x a') a h2

theorem mem_le_foldl_max : ∀ (xs : List ℚ) (x a : ℚ), a ∈ xs → a ≤ xs.foldl max x
  | a' :: xs, x, a, h => by
    rcases List.mem_cons.mp h with h1 | h2
    · subst h1
      exact le_trans (le_max_right x a) (init_le_foldl_max xs (max x a))
    · exact mem_le_foldl_max xs (max x a') a h2

theorem foldl_min_map (f : ℚ → ℚ) (hf : ∀ a b, f (min a b) = min (f a) (f b)) :
    ∀ (xs : List ℚ) (x : ℚ), (xs.map f).foldl min (f x) = f (xs.foldl min x)
  | [], _ => rfl
  | a :: xs, x => by
    simp only [List.map_cons, List.foldl_cons]
    rw [← hf, foldl_min_map f hf xs (min x a)]

theorem foldl_max_map (f : ℚ → ℚ) (hf : ∀ a b, f (max a b) = max (f a) (f b)) :
    ∀ (xs : List ℚ) (x : ℚ), (xs.map f).foldl max (f x) = f (xs.foldl max x)
  | [], _ => rfl
  | a :: xs, x => by
    simp only [List.map_cons, List.foldl_cons]
    rw [← hf, foldl_max_map f hf xs (max x a)]

theorem minList_le {l : List ℚ} {a : ℚ} (h : a ∈ l) : minList l ≤ a := by
  cases l with
  | nil => cases h
  | cons x xs =>
    rcases List.mem_cons.mp h with h1 | h2
    · rw [h1]; exact foldl_min_le_init xs x
    · exact foldl_min_le_mem xs x a h2

theorem le_maxList {l : List ℚ} {a : ℚ} (h : a ∈ l) : a ≤ maxList l := by
  cases l with
  | nil => cases h
  | cons x xs =>
    rcases List.mem_cons.mp h with h1 | h2
    · rw [h1]; exact init_le_foldl_max xs x
    · exact mem_le_foldl_max xs x a h2

theorem minList_le_maxList {l : List ℚ} (h : l ≠ []) : minList l ≤ maxList l := by
  cases l with
  | nil => exact absurd rfl h
  | cons x xs =>
    exact le_trans (foldl_min_le_init xs x) (init_le_foldl_max xs x)

theorem minList_map {l : List ℚ} (h : l ≠ []) (f : ℚ → ℚ)
    (hf : ∀ a b, f (min a b) = min (f a) (f b)) : minList (l.map f) = f (minList l) := by
  cases l with
  | nil => exact absurd rfl h
  | cons x xs => exact foldl_min_map f hf xs x

theorem maxList_map {l : List ℚ} (h : l ≠ []) (f : ℚ → ℚ)
    (hf : ∀ a b, f (max a b) = max (f a) (f b)) : maxList (l.map f) = f (maxList l) := by
  cases l with
  | nil => exact absurd rfl h
  | cons x xs => exact foldl_max_map f hf xs x

/-! ### Statistics of a normalized character -/

theorem all_x_eq_nil_iff (s : List (List (ℚ × ℚ))) : all_x s = [] ↔ s.flatten = [] := by
  simp [all_x]

theorem all_y_eq_nil_iff (s : List (List (ℚ × ℚ))) : all_y s = [] ↔ s.flatten = [] := by
  simp [all_y]

theorem normalize_eq {s : List (List (ℚ × ℚ))} (h : s.flatten ≠ []) :
    normalize_strokes s = s.map (fun stroke => stroke.map (normPoint s)) := by
  rw [normalize_strokes, if_neg]
  rw [all_x_eq_nil_iff, all_y_eq_nil_iff]
  simp [h]

theorem width_nonneg {s : List (List (ℚ × ℚ))} (h : s.flatten ≠ []) : 0 ≤ widthOf s := by
  have hx : all_x s ≠ [] := by rw [Ne, all_x_eq_nil_iff]; exact h
  have := minList_le_maxList hx
  rw [widthOf, max_x, min_x]
  linarith [this]

theorem height_nonneg {s : List (List (ℚ × ℚ))} (h : s.flatten ≠ []) : 0 ≤ heightOf s := by
  have hy : all_y s ≠ [] := by rw [Ne, all_y_eq_nil_iff]; exact h
  have := minList_le_maxList hy
  rw [heightOf, max_y, min_y]
  linarith [this]

theorem scale_pos {s : List (List (ℚ × ℚ))} (h : s.flatten ≠ []) : 0 < scaleOf s := by
  rw [scaleOf]
  split
  · exact one_pos
  · rename_i hne
    have h1 : 0 ≤ max (widthOf s) (heightOf s) :=
      le_trans (width_nonneg h) (le_max_left _ _)
    exact lt_of_le_of_ne h1 (Ne.symm hne)

theorem width_le_scale {s : List (List (ℚ × ℚ))} (_h : s.flatten ≠ []) :
    widthOf s ≤ scaleOf s := by
  rw [scaleOf]
  split
  · rename_i h0
    have : widthOf s ≤ max (widthOf s) (heightOf s) := le_max_left _ _
    rw [h0] at this
    linarith [this]
  · exact le_max_left _ _

theorem height_le_scale {s : List (List (ℚ × ℚ))} (_h : s.flatten ≠ []) :
    heightOf s ≤ scaleOf s := by
  rw [scaleOf]
  split
  · rename_i h0
    have : heightOf s ≤ max (widthOf s) (heightOf s) := le_max_right _ _
    rw [h0] at this
    linarith [this]
  · exact le_max_right _ _

theorem flatten_normalize {s : List (List (ℚ × ℚ))} (h : s.flatten ≠ []) :
    (normalize_strokes s).flatten = s.flatten.map (normPoint s) := by
  rw [normalize_eq h, ← List.map_flatten]

theorem all_x_normalize {s : List (List (ℚ × ℚ))} (h : s.flatten ≠ []) :
    all_x (normalize_strokes s) =
      (all_x s).map (fun v => (v - min_x s) / scaleOf s) := by
  rw [all_x, flatten_normalize h]
  simp only [List.map_map, all_x]
  rfl

theorem all_y_normalize {s : List (List (ℚ × ℚ))} (h : s.flatten ≠ []) :
    all_y (normalize_strokes s) =
      (all_y s).map (fun v => (v - min_y s) / scaleOf s) := by
  rw [all_y, flatten_normalize h]
  simp only [List.map_map, all_y]
  rfl

theorem min_x_normalize {s : List (List (ℚ × ℚ))} (h : s.flatten ≠ []) :
    min_x (normalize_strokes s) = 0 := by
  have hx : all_x s ≠ [] := by rw [Ne, all_x_eq_nil_iff]; exact h
  rw [min_x, all_x_normalize h,
    minList_map hx _ (fun a b => by
      rw [min_div_div_right (le_of_lt (scale_pos h)), min_sub_sub_right])]
  rw [← min_x, sub_self, zero_div]

theorem max_x_normalize {s : List (List (ℚ × ℚ))} (h : s.flatten ≠ []) :
    max_x (normalize_strokes s) = widthOf s / scaleOf s := by
  have hx : all_x s ≠ [] := by rw [Ne, all_x_eq_nil_iff]; exact h
  rw [max_x, all_x_normalize h,
    maxList_map hx _ (fun a b => by
      rw [max_div_div_right (le_of_lt (scale_pos h)), max_sub_sub_right])]
  rw [← max_x, widthOf]

theorem min_y_normalize {s : List (List (ℚ × ℚ))} (h : s.flatten ≠ []) :
    min_y (normalize_strokes s) = 0 := by
  have hy : all_y s ≠ [] := by rw [Ne, all_y_eq_nil_iff]; exact h
  rw [min_y, all_y_normalize h,
    minList_map hy _ (fun a b => by
      rw [min_div_div_right (le_of_lt (scale_pos h)), min_sub_sub_right])]
  rw [← min_y, sub_self, zero_div]

theorem max_y_normalize {s : List (List (ℚ × ℚ))} (h : s.flatten ≠ []) :
    max_y (normalize_strokes s) = heightOf s / scaleOf s := by
  have hy : all_y s ≠ [] := by rw [Ne, all_y_eq_nil_iff]; exact h
  rw [max_y, all_y_normalize h,
    maxList_map hy _ (fun a b => by
      rw [max_div_div_right (le_of_lt (scale_pos h)), max_sub_sub_right])]
  rw [← max_y, heightOf]

theorem width_normalize {s : List (List (ℚ × ℚ))} (h : s.flatten ≠ []) :
    widthOf (normalize_strokes s) = widthOf s / scaleOf s := by
  rw [widthOf, max_x_normalize h, min_x_normalize h, sub_zero]

theorem height_normalize {s : List (List (ℚ × ℚ))} (h : s.flatten ≠ []) :
    heightOf (normalize_strokes s) = heightOf s / scaleOf s := by
  rw [heightOf, max_y_normalize h, min_y_normalize h, sub_zero]

theorem scale_normalize {s : List (List (ℚ × ℚ))} (h : s.flatten ≠ []) :
    scaleOf (normalize_strokes s) = 1 := by
  rw [scaleOf, width_normalize h, height_normalize h,
    max_div_div_right (le_of_lt (scale_pos h))]
  by_cases h0 : max (widthOf s) (heightOf s) = 0
  · rw [h0, zero_div, if_pos rfl]
  · have hs : scaleOf s = max (widthOf s) (heightOf s) := by rw [scaleOf, if_neg h0]
    rw [hs, div_self h0, if_neg one_ne_zero]

/-- C5: `normalize_strokes` is idempotent over exact arithmetic — for every
stroke list with at least one point, re-applying `normalize_strokes` to its
own (full-precision) output returns the output unchanged: the second pass's
minima are already 0 and its scale is already 1. -/
theorem c5_normalize_idempotent (s : List (List (ℚ × ℚ))) (h : s.flatten ≠ []) :
    normalize_strokes (normalize_strokes s) = normalize_strokes s := by
  have h2 : (normalize_strokes s).flatten ≠ [] := by
    rw [flatten_normalize h]
    simp only [ne_eq, List.map_eq_nil_iff]
    exact h
  rw [normalize_eq h2]
  have hnp : normPoint (normalize_strokes s) = id := by
    funext p
    show ((p.1 - min_x (normalize_strokes s)) / scaleOf (normalize_strokes s),
          (p.2 - min_y (normalize_strokes s)) / scaleOf (normalize_strokes s)) = p
    rw [min_x_normalize h, min_y_normalize h, scale_normalize h]
    simp
  rw [hnp]
  simp

/-- Witness for C5 at a concrete two-point character. -/
theorem c5_witness :
    normalize_strokes (normalize_strokes [[((0:ℚ), (0:ℚ)), (2, 1)]]) =
      normalize_strokes [[((0:ℚ), (0:ℚ)), (2, 1)]] :=
  c5_normalize_idempotent _ (by simp)

/-- C3 (amended): for every character with at least one point whose points
do not all coincide (nonzero width or height), after normalization the
longer bounding-box axis spans exactly [0,1] (`width = 1` or `height = 1`),
the minimum is 0 on both axes, and every normalized coordinate lies in
[0,1]. -/
theorem c3_unit_bounding_box (s : List (List (ℚ × ℚ))) (h : s.flatten ≠ [])
    (hnd : widthOf s ≠ 0 ∨ heightOf s ≠ 0) :
    (widthOf (normalize_strokes s) = 1 ∨ heightOf (normalize_strokes s) = 1) ∧
    min_x (normalize_strokes s) = 0 ∧ min_y (normalize_strokes s) = 0 ∧
    ∀ p ∈ (normalize_strokes s).flatten,
      0 ≤ p.1 ∧ p.1 ≤ 1 ∧ 0 ≤ p.2 ∧ p.2 ≤ 1 := by
  have hmax : max (widthOf s) (heightOf s) ≠ 0 := by
    intro h0
    rcases hnd with hw | hh
    · exact hw (le_antisymm (h0 ▸ le_max_left _ _) (width_nonneg h))
    · exact hh (le_antisymm (h0 ▸ le_max_right _ _) (height_nonneg h))
  have hs : scaleOf s = max (widthOf s) (heightOf s) := by rw [scaleOf, if_neg hmax]
  have hsc := scale_pos h
  refine ⟨?_, min_x_normalize h, min_y_normalize h, ?_⟩
  · rcases max_choice (widthOf s) (heightOf s) with hc | hc
    · left
      rw [width_normalize h, hs, hc, div_self (hc ▸ hmax)]
    · right
      rw [height_normalize h, hs, hc, div_self (hc ▸ hmax)]
  · intro p hp
    rw [flatten_normalize h] at hp
    rcases List.mem_map.mp hp with ⟨q, hq, rfl⟩
    simp only [normPoint]
    have hqx : q.1 ∈ all_x s := List.mem_map_of_mem _ hq
    have hqy : q.2 ∈ all_y s := List.mem_map_of_mem _ hq
    have h1 : min_x s ≤ q.1 := minList_le hqx
    have h2 : q.1 ≤ max_x s := le_maxList hqx
    have h3 : min_y s ≤ q.2 := minList_le hqy
    have h4 : q.2 ≤ max_y s := le_maxList hqy
    refine ⟨div_nonneg (by linarith [h1]) (le_of_lt hsc), ?_,
           div_nonneg (by linarith [h3]) (le_of_lt hsc), ?_⟩
    · rw [div_le_one hsc]
      have := width_le_scale h
      rw [widthOf] at this
      linarith [this]
    · rw [div_le_one hsc]
      have := height_le_scale h
      rw [heightOf] at this
      linarith [this]

/-- Witness for C3 (amended) at a concrete one-stroke character. -/
theorem c3_witness :
    (widthOf (normalize_strokes [[((0:ℚ), (0:ℚ)), (2, 1)]]) = 1 ∨
      heightOf (normalize_strokes [[((0:ℚ), (0:ℚ)), (2, 1)]]) = 1) ∧
    min_x (normalize_strokes [[((0:ℚ), (0:ℚ)), (2, 1)]]) = 0 ∧
    min_y (normalize_strokes [[((0:ℚ), (0:ℚ)), (2, 1)]]) = 0 ∧
    ∀ p ∈ (normalize_strokes [[((0:ℚ), (0:ℚ)), (2, 1)]]).flatten,
      0 ≤ p.1 ∧ p.1 ≤ 1 ∧ 0 ≤ p.2 ∧ p.2 ≤ 1 :=
  c3_unit_bounding_box _ (by simp)
    (by
      left
      norm_num [widthOf, max_x, min_x, all_x, minList, maxList])

/-- Counterexample to C3 as stated: for the single-point character
`[[(5, 5)]]` (which has at least one point), normalization yields
`[[(0, 0)]]` and NEITHER axis of the normalized bounding box spans 1 —
the degenerate `scale == 0` case falls back to `scale = 1` and no axis
spans the unit range. -/
theorem c3_counterexample :
    normalize_strokes [[((5:ℚ), (5:ℚ))]] = [[(0, 0)]] ∧
    ¬ (widthOf (normalize_strokes [[((5:ℚ), (5:ℚ))]]) = 1 ∨
       heightOf (normalize_strokes [[((5:ℚ), (5:ℚ))]]) = 1) := by
  have h1 : normalize_strokes [[((5:ℚ), (5:ℚ))]] = [[(0, 0)]] := by
    norm_num [normalize_strokes, all_x, all_y, normPoint, min_x, min_y, max_x, max_y,
      scaleOf, widthOf, heightOf, minList, maxList]
  refine ⟨h1, ?_⟩
  rw [h1]
  norm_num [widthOf, heightOf, max_x, max_y, min_x, min_y, all_x, all_y, minList, maxList]

/-! ### Facts about the stroke-reading loop -/

theorem strokeLoop_ge (lines : List (List Char)) :
    ∀ (fuel i : Nat) (acc : List (List (Int × Int))),
      i ≤ (strokeLoop lines fuel i acc).2 := by
  intro fuel
  induction fuel with
  | zero => intro i acc; exact le_refl i
  | succ n ih =>
    intro i acc
    simp only [strokeLoop]
    split
    · split
      · exact ih i acc
      · split
        · exact le_trans (Nat.le_succ i) (ih (i + 1) acc)
        · exact le_trans (Nat.le_succ i) (ih (i + 1) _)
    · exact le_refl i

theorem strokeLoop_length (lines : List (List Char)) :
    ∀ (fuel i : Nat) (acc : List (List (Int × Int))),
      (strokeLoop lines fuel i acc).1.length =
        acc.length + productiveLineCount lines fuel i := by
  intro fuel
  induction fuel with
  | zero => intro i acc; simp [strokeLoop, productiveLineCount]
  | succ n ih =>
    intro i acc
    by_cases h : i < lines.length
    · by_cases hb : pyStrip (lines.getD i []) = []
      · simp only [strokeLoop, productiveLineCount, if_pos h, hb, if_pos rfl]
        exact ih i acc
      · by_cases hc : parseStrokeLine (pyStrip (lines.getD i [])) = []
        · simp only [strokeLoop, productiveLineCount, if_pos h, if_neg hb, hc]
          simp [ih (i + 1) acc]
        · simp only [strokeLoop, productiveLineCount, if_pos h, if_neg hb, if_neg hc]
          simp [ih (i + 1) _]
          omega
    · simp [strokeLoop, productiveLineCount, if_neg h]

theorem productiveLineCount_le (lines : List (List Char)) :
    ∀ (fuel i : Nat), productiveLineCount lines fuel i ≤ fuel := by
  intro fuel
  induction fuel with
  | zero => intro i; simp [productiveLineCount]
  | succ n ih =>
    intro i
    simp only [productiveLineCount]
    split
    · split
      · exact le_trans (ih i) (Nat.le_succ n)
      · split
        · exact le_trans (ih (i + 1)) (Nat.le_succ n)
        · exact Nat.succ_le_succ (ih (i + 1))
    · exact Nat.zero_le _

theorem strokeLoop_strokes_ne_nil (lines : List (List Char)) :
    ∀ (fuel i : Nat) (acc : List (List (Int × Int))),
      (∀ t ∈ acc, t ≠ []) →
      ∀ t ∈ (strokeLoop lines fuel i acc).1, t ≠ [] := by
  intro fuel
  induction fuel with
  | zero => intro i acc hacc; exact hacc
  | succ n ih =>
    intro i acc hacc
    by_cases h : i < lines.length
    · by_cases hb : pyStrip (lines.getD i []) = []
      · simp only [strokeLoop, if_pos h, hb, if_pos rfl]
        exact ih i acc hacc
      · by_cases hc : parseStrokeLine (pyStrip (lines.getD i [])) = []
        · simp only [strokeLoop, if_pos h, if_neg hb, hc, if_pos rfl]
          exact ih (i + 1) acc hacc
        · simp only [strokeLoop, if_pos h, if_neg hb, if_neg hc]
          refine ih (i + 1) _ ?_
          intro t ht
          rcases List.mem_append.mp ht with h1 | h2
          · exact hacc t h1
          · rw [List.mem_singleton.mp h2]; exact hc
    · simp only [strokeLoop, if_neg h]
      exact hacc

/-- C1 (amended): when the line at the cursor inside the stroke-reading
loop is blank, the `continue` skips the `i += 1`, so the cursor does not
advance; every remaining iteration re-inspects the same blank line, so the
loop returns the strokes accumulated so far with the cursor still at the
blank line — the blank line contributes nothing to the stroke list, and
stroke reading effectively ends at the first blank line. -/
theorem c1_blank_line_halts (lines : List (List Char)) (fuel i : Nat)
    (acc : List (List (Int × Int))) (h : i < lines.length)
    (hb : pyStrip (lines.getD i []) = []) :
    strokeLoop lines fuel i acc = (acc, i) := by
  induction fuel with
  | zero => rfl
  | succ n ih =>
    simp only [strokeLoop, if_pos h, hb, if_pos rfl]
    exact ih

/-- Witness for C1 (amended): with 5 iterations of budget left and a blank
line (a single space) at the cursor, the loop stops there, keeping the
strokes read so far and leaving the cursor on the blank line. -/
theorem c1_witness :
    strokeLoop [[' ']] 5 0 [[(1, 2)]] = ([[(1, 2)]], 0) :=
  c1_blank_line_halts [[' ']] 5 0 [[(1, 2)]] (by decide) (by decide)

/-- Counterexample to C1 as stated: the claim says the cursor advances
past a blank line while no slot is charged.  On the lines of
`"\n1 (0 0)"` with budget `N = 2`, the source loop (`strokeLoop`) returns
no strokes with the cursor still at the blank line (index 0), whereas the
spec-modelled loop (`strokeLoopSpecAdvance`) would skip the blank line and
parse the stroke `(0,0)`, ending at cursor 2.  End to end, the block
`"あ\n:2\n\n1 (0 0)"` therefore yields no record at all. -/
theorem c1_counterexample :
    strokeLoop ["".toList, "1 (0 0)".toList] 2 0 [] = ([], 0) ∧
    strokeLoopSpecAdvance ["".toList, "1 (0 0)".toList] 2 0 [] = ([[(0, 0)]], 2) ∧
    strokeLoop ["".toList, "1 (0 0)".toList] 2 0 [] ≠
      strokeLoopSpecAdvance ["".toList, "1 (0 0)".toList] 2 0 [] ∧
    parse_tdic "あ\n:2\n\n1 (0 0)" = Except.ok [] :=
  ⟨by decide, by decide, by decide, by decide⟩

/-! ### Facts about the main scanning loop -/

theorem skipNonBlank_ge (lines : List (List Char)) :
    ∀ (fuel i : Nat), i ≤ skipNonBlank lines fuel i := by
  intro fuel
  induction fuel with
  | zero => intro i; exact le_refl i
  | succ n ih =>
    intro i
    simp only [skipNonBlank]
    split
    · exact le_trans (Nat.le_succ i) (ih (i + 1))
    · exact le_refl i

theorem skipNonBlank_spec (lines : List (List Char)) :
    ∀ (fuel i : Nat), lines.length ≤ i + fuel → i ≤ lines.length →
      skipNonBlank lines fuel i ≤ lines.length ∧
      (∀ k, i ≤ k → k < skipNonBlank lines fuel i → pyStrip (lines.getD k []) ≠ []) ∧
      (skipNonBlank lines fuel i = lines.length ∨
        pyStrip (lines.getD (skipNonBlank lines fuel i) []) = []) := by
  intro fuel
  induction fuel with
  | zero =>
    intro i hfe hil
    have hi : i = lines.length := le_antisymm hil (by omega)
    refine ⟨le_of_eq hi, ?_, Or.inl hi⟩
    intro k hk1 hk2
    simp only [skipNonBlank] at hk2
    omega
  | succ n ih =>
    intro i hfe hil
    by_cases hc : i < lines.length ∧ pyStrip (lines.getD i []) ≠ []
    · have hstep : skipNonBlank lines (n + 1) i = skipNonBlank lines n (i + 1) := by
        simp only [skipNonBlank, if_pos hc]
      rcases ih (i + 1) (by omega) hc.1 with ⟨h1, h2, h3⟩
      rw [hstep]
      refine ⟨h1, ?_, h3⟩
      intro k hk1 hk2
      rcases Nat.eq_or_lt_of_le hk1 with hk | hk
      · rw [← hk]; exact hc.2
      · exact h2 k hk hk2
    · have hstep : skipNonBlank lines (n + 1) i = i := by
        simp only [skipNonBlank, if_neg hc]
      rw [hstep]
      refine ⟨hil, ?_, ?_⟩
      · intro k hk1 hk2; omega
      · rcases Nat.eq_or_lt_of_le hil with hi | hi
        · exact Or.inl hi
        · right
          rcases not_and_or.mp hc with hc1 | hc2
          · exact absurd hi hc1
          · exact not_not.mp hc2

theorem parseLoop_blank_step (lines : List (List Char)) (fuel i : Nat)
    (acc : List CharacterRecord) (h : i < lines.length)
    (hb : pyStrip (lines.getD i []) = []) :
    parseLoop lines (fuel + 1) i acc = parseLoop lines fuel (i + 1) acc := by
  have e1 : lines.getD i [] = lines[i] := List.getD_eq_getElem lines [] h
  rw [e1] at hb
  simp [parseLoop, h, hb]

/-- C7: when a glyph line is followed by a line that does not start with
the `':'` marker, the `continue` (after the single `i += 1` past the glyph
line) abandons the glyph — no record is appended — and scanning resumes
with that same following line as a fresh top-level line. -/
theorem c7_missing_count_line (lines : List (List Char)) (fuel i : Nat)
    (acc : List CharacterRecord) (h : i < lines.length)
    (hnb : pyStrip (lines.getD i []) ≠ [])
    (hm : (startsWithChar '旧' (pyStrip (lines.getD i [])) ||
           startsWithChar '新' (pyStrip (lines.getD i []))) = false)
    (hc : startsWithChar ':' (pyStrip (lines.getD i [])) = false)
    (h2 : i + 1 < lines.length)
    (hcnt : startsWithChar ':' (pyStrip (lines.getD (i + 1) [])) = false) :
    parseLoop lines (fuel + 1) i acc = parseLoop lines fuel (i + 1) acc := by
  have e1 : lines.getD i [] = lines[i] := List.getD_eq_getElem lines [] h
  have e2 : lines.getD (i + 1) [] = lines[i + 1] := List.getD_eq_getElem lines [] h2
  rw [e1] at hnb hm hc
  rw [e2] at hcnt
  simp [parseLoop, h, hnb, hm, hc, h2, hcnt]

/-- Witness for C7: two consecutive glyph lines — the first glyph `あ` is
abandoned, scanning resumes at the line `い`, which then parses as a fresh
glyph with its own count line, so only `い` is emitted. -/
theorem c7_witness :
    parseLoop ["あ".toList, "い".toList, ":1".toList, "1 (3 4)".toList] 4 0 [] =
      parseLoop ["あ".toList, "い".toList, ":1".toList, "1 (3 4)".toList] 3 1 [] ∧
    parse_tdic "あ\nい\n:1\n1 (3 4)" =
      Except.ok [⟨"い".toList, [[(3, 4)]]⟩] :=
  ⟨c7_missing_count_line _ 3 0 [] (by decide) (by decide) (by decide) (by decide)
      (by decide) (by decide),
   by decide⟩

/-- C9: a count line whose remainder parses as an integer `n ≤ 0` makes
`range(stroke_count)` empty — no stroke lines are read, no record is
emitted (the `if strokes:` guard fails), no error is raised, and scanning
resumes at the line right after the count line as a fresh top-level
line. -/
theorem c9_nonpositive_count (lines : List (List Char)) (fuel i : Nat)
    (acc : List CharacterRecord) (n : Int) (h : i < lines.length)
    (hnb : pyStrip (lines.getD i []) ≠ [])
    (hm : (startsWithChar '旧' (pyStrip (lines.getD i [])) ||
           startsWithChar '新' (pyStrip (lines.getD i []))) = false)
    (hc : startsWithChar ':' (pyStrip (lines.getD i [])) = false)
    (h2 : i + 1 < lines.length)
    (hcnt : startsWithChar ':' (pyStrip (lines.getD (i + 1) [])) = true)
    (hn : pyInt ((pyStrip (lines.getD (i + 1) [])).drop 1) = some n)
    (hn0 : n ≤ 0) :
    parseLoop lines (fuel + 1) i acc = parseLoop lines fuel (i + 2) acc := by
  have hnt : n.toNat = 0 := Int.toNat_eq_zero.mpr hn0
  have e1 : lines.getD i [] = lines[i] := List.getD_eq_getElem lines [] h
  have e2 : lines.getD (i + 1) [] = lines[i + 1] := List.getD_eq_getElem lines [] h2
  rw [e1] at hnb hm hc
  rw [e2] at hcnt hn
  rw [List.drop_one] at hn
  simp [parseLoop, h, hnb, hm, hc, h2, hcnt, hn, hnt, strokeLoop]

/-- Witness for C9: the block `あ` with declared count `0` produces no
record and no error; the following lines are reprocessed as top-level
lines, so only `い` is emitted. -/
theorem c9_witness :
    parseLoop ["あ".toList, ":0".toList, "い".toList, ":1".toList, "1 (3 4)".toList]
        5 0 [] =
      parseLoop ["あ".toList, ":0".toList, "い".toList, ":1".toList, "1 (3 4)".toList]
        4 2 [] ∧
    parse_tdic "あ\n:0\nい\n:1\n1 (3 4)" = Except.ok [⟨"い".toList, [[(3, 4)]]⟩] ∧
    parse_tdic "あ\n:-2\nい\n:1\n1 (3 4)" = Except.ok [⟨"い".toList, [[(3, 4)]]⟩] :=
  ⟨c9_nonpositive_count _ 4 0 [] 0 (by decide) (by decide) (by decide) (by decide)
      (by decide) (by decide) (by decide) (by decide),
   by decide, by decide⟩

/-- C8: a top-level line starting with one of the reserved variant markers
`旧`/`新` is discarded together with all following non-blank lines, no
record is produced, the cursor is left at the next blank line or at end of
input (every line strictly between is non-blank), and — when a blank line
terminated the block — scanning resumes at the line after that blank
line. -/
theorem c8_variant_block (lines : List (List Char)) (fuel i : Nat)
    (acc : List CharacterRecord) (h : i < lines.length)
    (hnb : pyStrip (lines.getD i []) ≠ [])
    (hm : (startsWithChar '旧' (pyStrip (lines.getD i [])) ||
           startsWithChar '新' (pyStrip (lines.getD i []))) = true) :
    parseLoop lines (fuel + 1) i acc =
      parseLoop lines fuel (skipNonBlank lines lines.length (i + 1)) acc ∧
    i + 1 ≤ skipNonBlank lines lines.length (i + 1) ∧
    skipNonBlank lines lines.length (i + 1) ≤ lines.length ∧
    (∀ k, i + 1 ≤ k → k < skipNonBlank lines lines.length (i + 1) →
      pyStrip (lines.getD k []) ≠ []) ∧
    (skipNonBlank lines lines.length (i + 1) = lines.length ∨
      pyStrip (lines.getD (skipNonBlank lines lines.length (i + 1)) []) = []) ∧
    (skipNonBlank lines lines.length (i + 1) < lines.length →
      parseLoop lines (fuel + 1) (skipNonBlank lines lines.length (i + 1)) acc =
        parseLoop lines fuel (skipNonBlank lines lines.length (i + 1) + 1) acc) := by
  rcases skipNonBlank_spec lines lines.length (i + 1) (by omega) (by omega)
    with ⟨h1, h2, h3⟩
  refine ⟨?_, skipNonBlank_ge lines lines.length (i + 1), h1, h2, h3, ?_⟩
  · have e1 : lines.getD i [] = lines[i] := List.getD_eq_getElem lines [] h
    rw [e1] at hnb hm
    simp [parseLoop, h, hnb, hm]
  intro hlt
  have hblank : pyStrip (lines.getD (skipNonBlank lines lines.length (i + 1)) []) = [] := by
    rcases h3 with h3 | h3
    · omega
    · exact h3
  exact parseLoop_blank_step lines fuel _ acc hlt hblank

/-- Witness for C8: the block `旧あ` followed by two non-blank lines and a
blank line is skipped whole; the parser resumes after the blank line and
emits only the following `い` block. -/
theorem c8_witness :
    parseLoop ["旧あ".toList, "foo".toList, "bar".toList, "".toList, "い".toList,
        ":1".toList, "1 (3 4)".toList] 7 0 [] =
      parseLoop ["旧あ".toList, "foo".toList, "bar".toList, "".toList, "い".toList,
        ":1".toList, "1 (3 4)".toList] 6
        (skipNonBlank ["旧あ".toList, "foo".toList, "bar".toList, "".toList, "い".toList,
          ":1".toList, "1 (3 4)".toList] 7 1) [] ∧
    parse_tdic "旧あ\nfoo\nbar\n\nい\n:1\n1 (3 4)" =
      Except.ok [⟨"い".toList, [[(3, 4)]]⟩] :=
  ⟨(c8_variant_block _ 6 0 [] (by decide) (by decide) (by decide)).1,
   by decide⟩

/-- C2: for a valid block — glyph line at `i`, count line at `i + 1` whose
remainder parses as `n ≥ 0`, and a non-empty stroke harvest — the emitted
record carries exactly the strokes collected by the reading loop, their
number is at most the declared count `n`, and it equals the number of
non-blank inspected lines whose parse yielded at least one coordinate pair
(`productiveLineCount`). -/
theorem c2_stroke_count_bound (lines : List (List Char)) (fuel i : Nat)
    (acc : List CharacterRecord) (n : Int) (h : i < lines.length)
    (hnb : pyStrip (lines.getD i []) ≠ [])
    (hm : (startsWithChar '旧' (pyStrip (lines.getD i [])) ||
           startsWithChar '新' (pyStrip (lines.getD i []))) = false)
    (hc : startsWithChar ':' (pyStrip (lines.getD i [])) = false)
    (h2 : i + 1 < lines.length)
    (hcnt : startsWithChar ':' (pyStrip (lines.getD (i + 1) [])) = true)
    (hn : pyInt ((pyStrip (lines.getD (i + 1) [])).drop 1) = some n)
    (hnn : 0 ≤ n)
    (hs : (strokeLoop lines n.toNat (i + 2) []).1 ≠ []) :
    parseLoop lines (fuel + 1) i acc =
      parseLoop lines fuel (strokeLoop lines n.toNat (i + 2) []).2
        (acc ++ [⟨pyStrip (lines.getD i []), (strokeLoop lines n.toNat (i + 2) []).1⟩]) ∧
    ((strokeLoop lines n.toNat (i + 2) []).1.length : Int) ≤ n ∧
    (strokeLoop lines n.toNat (i + 2) []).1.length =
      productiveLineCount lines n.toNat (i + 2) := by
  have hlen : (strokeLoop lines n.toNat (i + 2) []).1.length =
      productiveLineCount lines n.toNat (i + 2) := by
    simpa using strokeLoop_length lines n.toNat (i + 2) []
  have hle : productiveLineCount lines n.toNat (i + 2) ≤ n.toNat :=
    productiveLineCount_le lines n.toNat (i + 2)
  refine ⟨?_, ?_, hlen⟩
  · have e1 : lines.getD i [] = lines[i] := List.getD_eq_getElem lines [] h
    have e2 : lines.getD (i + 1) [] = lines[i + 1] := List.getD_eq_getElem lines [] h2
    rw [e1] at hnb hm hc
    rw [e2] at hcnt hn
    rw [List.drop_one] at hn
    rw [e1]
    simp [parseLoop, h, hnb, hm, hc, h2, hcnt, hn, hs]
  · omega

/-- Witness for C2 at a concrete valid block: glyph `あ`, declared count 3,
three candidate lines of which the middle one parses to no coordinate pair;
2 strokes are emitted, `2 ≤ 3`, and 2 equals the productive-line count. -/
theorem c2_witness :
    parseLoop ["あ".toList, ":3".toList, "1 (0 0) (2 3)".toList, "junk".toList,
        "1 (4 5)".toList] 5 0 [] =
      parseLoop ["あ".toList, ":3".toList, "1 (0 0) (2 3)".toList, "junk".toList,
        "1 (4 5)".toList] 4
        (strokeLoop ["あ".toList, ":3".toList, "1 (0 0) (2 3)".toList, "junk".toList,
          "1 (4 5)".toList] (Int.toNat 3) 2 []).2
        ([] ++ [⟨pyStrip (["あ".toList, ":3".toList, "1 (0 0) (2 3)".toList,
          "junk".toList, "1 (4 5)".toList].getD 0 []),
          (strokeLoop ["あ".toList, ":3".toList, "1 (0 0) (2 3)".toList, "junk".toList,
            "1 (4 5)".toList] (Int.toNat 3) 2 []).1⟩]) ∧
    ((strokeLoop ["あ".toList, ":3".toList, "1 (0 0) (2 3)".toList, "junk".toList,
        "1 (4 5)".toList] (Int.toNat 3) 2 []).1.length : Int) ≤ 3 ∧
    (strokeLoop ["あ".toList, ":3".toList, "1 (0 0) (2 3)".toList, "junk".toList,
        "1 (4 5)".toList] (Int.toNat 3) 2 []).1.length =
      productiveLineCount ["あ".toList, ":3".toList, "1 (0 0) (2 3)".toList,
        "junk".toList, "1 (4 5)".toList] (Int.toNat 3) 2 :=
  c2_stroke_count_bound _ 4 0 [] 3 (by decide) (by decide) (by decide) (by decide)
    (by decide) (by decide) (by decide) (by decide) (by decide)

/-- Any property `P` that holds of every record the glyph branch can append
(a record whose `char` is a non-blank, marker-free top-level line and whose
strokes come from a non-empty stroke harvest with every stroke non-empty)
is an invariant of the accumulator of `parseLoop`. -/
theorem parseLoop_ok_inv (lines : List (List Char)) (P : CharacterRecord → Prop)
    (happend : ∀ i, i < lines.length → pyStrip (lines.getD i []) ≠ [] →
      ¬ ((startsWithChar '旧' (pyStrip (lines.getD i [])) ||
          startsWithChar '新' (pyStrip (lines.getD i []))) = true) →
      ∀ strokes, strokes ≠ [] → (∀ t ∈ strokes, t ≠ []) →
      P ⟨pyStrip (lines.getD i []), strokes⟩) :
    ∀ (fuel i : Nat) (acc res : List CharacterRecord),
      parseLoop lines fuel i acc = Except.ok res → (∀ r ∈ acc, P r) →
      ∀ r ∈ res, P r := by
  intro fuel
  induction fuel with
  | zero =>
    intro i acc res h hacc
    simp only [parseLoop, Except.ok.injEq] at h
    rw [← h]
    exact hacc
  | succ n ih =>
    intro i acc res h hacc
    by_cases h1 : i < lines.length
    · have e1 : lines.getD i [] = lines[i] := List.getD_eq_getElem lines [] h1
      by_cases hb : pyStrip lines[i] = []
      · simp [parseLoop, h1, hb] at h
        exact ih _ _ _ h hacc
      · by_cases hm : (startsWithChar '旧' (pyStrip lines[i]) ||
            startsWithChar '新' (pyStrip lines[i])) = true
        · simp [parseLoop, h1, hb, hm] at h
          exact ih _ _ _ h hacc
        · by_cases hcl : startsWithChar ':' (pyStrip lines[i]) = true
          · simp [parseLoop, h1, hb, hm, hcl] at h
            exact ih _ _ _ h hacc
          · by_cases h2 : i + 1 < lines.length
            · have e2 : lines.getD (i + 1) [] = lines[i + 1] :=
                List.getD_eq_getElem lines [] h2
              by_cases hcnt : startsWithChar ':' (pyStrip lines[i + 1]) = true
              · cases hpi : pyInt (pyStrip lines[i + 1]).tail with
                | none =>
                  simp [parseLoop, h1, hb, hm, hcl, h2, hcnt, hpi] at h
                | some m =>
                  by_cases hr : (strokeLoop lines m.toNat (i + 2) []).1 = []
                  · simp [parseLoop, h1, hb, hm, hcl, h2, hcnt, hpi, hr] at h
                    exact ih _ _ _ h hacc
                  · simp [parseLoop, h1, hb, hm, hcl, h2, hcnt, hpi, hr] at h
                    refine ih _ _ _ h ?_
                    intro r hrm
                    rcases List.mem_append.mp hrm with ha | hn2
                    · exact hacc r ha
                    · rw [List.mem_singleton.mp hn2]
                      have hres := happend i h1 (by rw [e1]; exact hb)
                        (by rw [e1]; exact hm) (strokeLoop lines m.toNat (i + 2) []).1
                        hr (strokeLoop_strokes_ne_nil lines _ _ []
                          (by intro t ht; cases ht))
                      rw [e1] at hres
                      exact hres
              · simp [parseLoop, h1, hb, hm, hcl, h2, hcnt] at h
                exact ih _ _ _ h hacc
            · simp [parseLoop, h1, hb, hm, hcl, h2] at h
              rw [← h]
              exact hacc
    · simp [parseLoop, h1] at h
      rw [← h]
      exact hacc

/-- The only `Except.error` site of `parseLoop` is the `int(...)` call on
the remainder of a count line: whenever the loop returns an error, the
carried payload is a string on which the modelled Python `int` raises. -/
theorem parseLoop_error_nonnumeric (lines : List (List Char)) :
    ∀ (fuel i : Nat) (acc : List CharacterRecord) (e : List Char),
      parseLoop lines fuel i acc = Except.error e → pyInt e = none := by
  intro fuel
  induction fuel with
  | zero =>
    intro i acc e h
    simp only [parseLoop] at h
    cases h
  | succ n ih =>
    intro i acc e h
    by_cases h1 : i < lines.length
    · by_cases hb : pyStrip lines[i] = []
      · simp [parseLoop, h1, hb] at h
        exact ih _ _ _ h
      · by_cases hm : (startsWithChar '旧' (pyStrip lines[i]) ||
            startsWithChar '新' (pyStrip lines[i])) = true
        · simp [parseLoop, h1, hb, hm] at h
          exact ih _ _ _ h
        · by_cases hcl : startsWithChar ':' (pyStrip lines[i]) = true
          · simp [parseLoop, h1, hb, hm, hcl] at h
            exact ih _ _ _ h
          · by_cases h2 : i + 1 < lines.length
            · by_cases hcnt : startsWithChar ':' (pyStrip lines[i + 1]) = true
              · cases hpi : pyInt (pyStrip lines[i + 1]).tail with
                | none =>
                  simp [parseLoop, h1, hb, hm, hcl, h2, hcnt, hpi] at h
                  rw [← h]
                  exact hpi
                | some m =>
                  by_cases hr : (strokeLoop lines m.toNat (i + 2) []).1 = []
                  · simp [parseLoop, h1, hb, hm, hcl, h2, hcnt, hpi, hr] at h
                    exact ih _ _ _ h
                  · simp [parseLoop, h1, hb, hm, hcl, h2, hcnt, hpi, hr] at h
                    exact ih _ _ _ h
              · simp [parseLoop, h1, hb, hm, hcl, h2, hcnt] at h
                exact ih _ _ _ h
            · simp [parseLoop, h1, hb, hm, hcl, h2] at h
    · simp [parseLoop, h1] at h

/-- C4: the parser never raises on a malformed coordinate fragment — on
`"2 (5 5) (bad 5) (15 15)"` the bad fragment is dropped and the other two
points survive — and whenever `parse_tdic` does propagate an error, the
payload is a count-line remainder on which the modelled Python `int`
raises, i.e. a non-numeric remainder after the `':'` marker. -/
theorem c4_error_policy :
    (∀ (content : String) (e : List Char),
        parse_tdic content = Except.error e → pyInt e = none) ∧
    parseStrokeLine ("2 (5 5) (bad 5) (15 15)".toList) = [(5, 5), (15, 15)] := by
  constructor
  · intro content e h
    exact parseLoop_error_nonnumeric (splitOnChar '\n' (pyStrip content.toList))
      _ 0 [] e h
  · decide

/-- Witness for C4: on `"あ\n:xyz"` the parser propagates an error whose
payload `"xyz"` is indeed non-numeric. -/
theorem c4_witness : pyInt ("xyz".toList) = none :=
  c4_error_policy.1 "あ\n:xyz" ("xyz".toList) (by decide)

/-- C6: every record emitted by `parse_tdic` has a non-empty stroke list
(the `if strokes:` guard drops glyphs with zero usable strokes), every
individual stroke in it is non-empty (the `if coords:` guard), and
consequently the normalizer input of such a record is never empty — its
`normalize_strokes` output is non-empty as well, so no record is ever
carried forward with empty strokes. -/
theorem c6_records_nonempty (content : String) (res : List CharacterRecord)
    (h : parse_tdic content = Except.ok res) :
    ∀ r ∈ res, r.strokes ≠ [] ∧ (∀ t ∈ r.strokes, t ≠ []) ∧
      normalize_strokes (toRatStrokes r.strokes) ≠ [] := by
  intro r hr
  have base :=
    parseLoop_ok_inv (splitOnChar '\n' (pyStrip content.toList))
      (fun r => r.strokes ≠ [] ∧ ∀ t ∈ r.strokes, t ≠ [])
      (by
        intro i _ _ _ strokes hs hts
        exact ⟨hs, hts⟩)
      _ 0 [] res h (by intro r hrm; cases hrm) r hr
  obtain ⟨h1, h2⟩ := base
  refine ⟨h1, h2, ?_⟩
  have hfl : (toRatStrokes r.strokes).flatten ≠ [] := by
    cases hst : r.strokes with
    | nil => exact absurd hst h1
    | cons st rest =>
      have hstne : st ≠ [] := h2 st (by rw [hst]; exact List.mem_cons_self st rest)
      simp only [toRatStrokes, List.map_cons, List.flatten_cons, ne_eq,
        List.append_eq_nil]
      intro hcontra
      exact hstne (List.map_eq_nil_iff.mp hcontra.1)
  rw [normalize_eq hfl]
  intro hcontra
  have h3 : toRatStrokes r.strokes = [] := List.map_eq_nil_iff.mp hcontra
  exact h1 (List.map_eq_nil_iff.mp h3)

/-- Witness for C6 at the spec's example block. -/
theorem c6_witness :
    (⟨"あ".toList, [[(0, 0), (10, 0), (10, 10)]]⟩ : CharacterRecord).strokes ≠ [] ∧
    (∀ t ∈ (⟨"あ".toList, [[(0, 0), (10, 0), (10, 10)]]⟩ : CharacterRecord).strokes,
      t ≠ []) ∧
    normalize_strokes (toRatStrokes
      (⟨"あ".toList, [[(0, 0), (10, 0), (10, 10)]]⟩ : CharacterRecord).strokes) ≠ [] :=
  c6_records_nonempty "あ\n:1\n3 (0 0) (10 0) (10 10)"
    [⟨"あ".toList, [[(0, 0), (10, 0), (10, 10)]]⟩] (by decide) _ (by decide)

/-- C10: no record returned by `parse_tdic` has a glyph beginning with one
of the variant markers `旧` or `新` — any top-level line starting with one
of them (even a legitimate single-character entry for those kanji) is
discarded as a variant block, so such glyphs can never appear in the
output. -/
theorem c10_no_marker_glyphs (content : String) (res : List CharacterRecord)
    (h : parse_tdic content = Except.ok res) :
    ∀ r ∈ res, startsWithChar '旧' r.char = false ∧
      startsWithChar '新' r.char = false := by
  intro r hr
  exact parseLoop_ok_inv (splitOnChar '\n' (pyStrip content.toList))
    (fun r => startsWithChar '旧' r.char = false ∧ startsWithChar '新' r.char = false)
    (by
      intro i _ _ hm strokes _ _
      constructor
      · revert hm
        cases startsWithChar '旧' (pyStrip ((splitOnChar '\n' (pyStrip content.toList)).getD i [])) <;> simp
      · revert hm
        cases startsWithChar '新' (pyStrip ((splitOnChar '\n' (pyStrip content.toList)).getD i [])) <;> simp)
    _ 0 [] res h (by intro r hrm; cases hrm) r hr

/-- Witness for C10: even when `旧` is meant as a real kanji entry with its
own stroke data, it is discarded — parsing a file containing the blocks
`旧` and `い` yields only `い`, and that record's glyph starts with neither
marker. -/
theorem c10_witness :
    parse_tdic "旧\n:1\n1 (3 4)\n\nい\n:1\n1 (3 4)" =
      Except.ok [⟨"い".toList, [[(3, 4)]]⟩] ∧
    startsWithChar '旧' ("い".toList) = false ∧
    startsWithChar '新' ("い".toList) = false :=
  ⟨by decide,
   c10_no_marker_glyphs "旧\n:1\n1 (3 4)\n\nい\n:1\n1 (3 4)"
     [⟨"い".toList, [[(3, 4)]]⟩] (by decide) ⟨"い".toList, [[(3, 4)]]⟩ (by decide)⟩

end TomoePredict
